import Mathlib

/-!
Verification of the Obsidian Ollama plugin (src/main.ts).

The buffer of the editor is modelled as a list of lines, each line a list of
characters containing no newline.  Positions are (line, ch) pairs, as in the
code.  Chunks delivered by the streaming client are lists of characters that
may contain newlines.  The send-handler, the placeholder lifecycle, the
streaming loop with its cursor arithmetic, and the settings persistence are
embedded from the source.
-/

/-- An editor position, as in the code: a line index and a column (`ch`). -/
structure EditorPosition where
  line : Nat
  ch : Nat
deriving DecidableEq, Repr

/-- Prepend a character to the first piece of a split (used to build
`chunk.split("\n")`). -/
def consHead (c : Char) : List (List Char) → List (List Char)
  | [] => [[c]]
  | l :: ls => (c :: l) :: ls

/-- `splitOnNl s` models the JavaScript `s.split("\n")`: the maximal
newline-free pieces of `s`, in order; always nonempty. -/
def splitOnNl : List Char → List (List Char)
  | [] => [[]]
  | c :: cs => if c = '\n' then [] :: splitOnNl cs else consHead c (splitOnNl cs)

/-- The head piece of a split (JavaScript `lines[0]`). -/
def headLine (s : List (List Char)) : List Char := s.headD []

/-- The final piece of a split (JavaScript `lines[lines.length - 1]`). -/
def lastLine : List (List Char) → List Char
  | [] => []
  | [l] => l
  | _ :: l :: ls => lastLine (l :: ls)

/-- The cursor update of the streaming loop (src/main.ts lines 71-78):
split the chunk on newlines; a single piece advances the column by the
piece's length, otherwise the line advances by the number of extra pieces
and the column becomes the length of the final piece. -/
def advanceCursor (pos : EditorPosition) (chunk : List Char) : EditorPosition :=
  let lines := splitOnNl chunk
  if lines.length = 1 then
    { pos with ch := pos.ch + (headLine lines).length }
  else
    { line := pos.line + (lines.length - 1), ch := (lastLine lines).length }

/-- The text after the last newline of a chunk, stated independently of the
split (follows the spec's wording for comparison with the code). -/
def specAfterLastNewline : List Char → List Char
  | [] => []
  | c :: cs =>
    if '\n' ∈ cs then specAfterLastNewline cs
    else if c = '\n' then cs
    else c :: cs

theorem consHead_ne_nil (c : Char) (s : List (List Char)) : consHead c s ≠ [] := by
  cases s <;> simp [consHead]

theorem splitOnNl_ne_nil (l : List Char) : splitOnNl l ≠ [] := by
  induction l with
  | nil => simp [splitOnNl]
  | cons c cs ih =>
    by_cases h : c = '\n' <;> simp [splitOnNl, h, consHead_ne_nil]

theorem consHead_length (c : Char) {s : List (List Char)} (h : s ≠ []) :
    (consHead c s).length = s.length := by
  cases s with
  | nil => exact absurd rfl h
  | cons l ls => simp [consHead]

theorem splitOnNl_length (l : List Char) :
    (splitOnNl l).length = l.count '\n' + 1 := by
  induction l with
  | nil => simp [splitOnNl]
  | cons c cs ih =>
    by_cases h : c = '\n'
    · simp [splitOnNl, h, ih, List.count_cons]
    · rw [splitOnNl, if_neg h, consHead_length c (splitOnNl_ne_nil cs), ih]
      simp [List.count_cons, h]

theorem splitOnNl_of_no_nl {l : List Char} (h : '\n' ∉ l) : splitOnNl l = [l] := by
  induction l with
  | nil => simp [splitOnNl]
  | cons c cs ih =>
    simp only [List.mem_cons, not_or] at h
    rw [splitOnNl, if_neg (fun hc => h.1 hc.symm), ih h.2]
    simp [consHead]

theorem specAfterLastNewline_of_no_nl {l : List Char} (h : '\n' ∉ l) :
    specAfterLastNewline l = l := by
  induction l with
  | nil => rfl
  | cons c cs ih =>
    simp only [List.mem_cons, not_or] at h
    rw [specAfterLastNewline, if_neg h.2, if_neg (fun hc => h.1 hc.symm)]

theorem lastLine_cons_of_ne_nil (l : List Char) {s : List (List Char)} (h : s ≠ []) :
    lastLine (l :: s) = lastLine s := by
  cases s with
  | nil => exact absurd rfl h
  | cons x xs => rfl

theorem consHead_lastLine (c : Char) {s : List (List Char)} (h : s ≠ []) :
    lastLine (consHead c s) = if s.length = 1 then c :: lastLine s else lastLine s := by
  cases s with
  | nil => exact absurd rfl h
  | cons x xs =>
    cases xs with
    | nil => simp [consHead, lastLine]
    | cons y ys => simp [consHead, lastLine]

theorem lastLine_splitOnNl (l : List Char) :
    lastLine (splitOnNl l) = specAfterLastNewline l := by
  induction l with
  | nil => rfl
  | cons c cs ih =>
    by_cases h : c = '\n'
    · rw [splitOnNl, if_pos h, lastLine_cons_of_ne_nil _ (splitOnNl_ne_nil cs), ih,
        specAfterLastNewline, h]
      by_cases hm : '\n' ∈ cs
      · rw [if_pos hm]
      · rw [if_neg hm, if_pos rfl, specAfterLastNewline_of_no_nl hm]
    · rw [splitOnNl, if_neg h, consHead_lastLine c (splitOnNl_ne_nil cs), ih,
        specAfterLastNewline]
      by_cases hm : '\n' ∈ cs
      · have hcount : cs.count '\n' ≠ 0 := by
          simpa [List.count_eq_zero] using hm
        rw [if_neg (by rw [splitOnNl_length]; omega), if_pos hm]
      · have hcount : cs.count '\n' = 0 := by
          simpa [List.count_eq_zero] using hm
        rw [if_pos (by rw [splitOnNl_length, hcount]), if_neg hm,
          if_neg h, specAfterLastNewline_of_no_nl hm]

theorem advanceCursor_of_no_nl (pos : EditorPosition) {chunk : List Char}
    (h : '\n' ∉ chunk) :
    advanceCursor pos chunk = ⟨pos.line, pos.ch + chunk.length⟩ := by
  rw [advanceCursor]
  simp [splitOnNl_of_no_nl h, headLine]

theorem advanceCursor_of_nl (pos : EditorPosition) {chunk : List Char}
    (h : '\n' ∈ chunk) :
    advanceCursor pos chunk =
      ⟨pos.line + chunk.count '\n', (specAfterLastNewline chunk).length⟩ := by
  have hcount : chunk.count '\n' ≠ 0 := by
    simpa [List.count_eq_zero] using h
  rw [advanceCursor]
  simp only [splitOnNl_length]
  rw [if_neg (by omega), lastLine_splitOnNl]
  simp

/-- C1: for every chunk applied during streaming, the cursor update follows
the two-case rule: with no newline in the chunk, the column advances by the
chunk's length and the line is unchanged; with `n ≥ 1` newlines, the line
advances by `n` and the column becomes the length of the text after the last
newline of the chunk. -/
theorem cursor_update_two_case_rule (pos : EditorPosition) (chunk : List Char) :
    (chunk.count '\n' = 0 →
      advanceCursor pos chunk = ⟨pos.line, pos.ch + chunk.length⟩) ∧
    (1 ≤ chunk.count '\n' →
      advanceCursor pos chunk =
        ⟨pos.line + chunk.count '\n', (specAfterLastNewline chunk).length⟩) := by
  constructor
  · intro h
    exact advanceCursor_of_no_nl pos (by simpa [List.count_eq_zero] using h)
  · intro h
    refine advanceCursor_of_nl pos ?_
    rw [← List.count_pos_iff]
    omega

/-- Witness for C1 at the concrete chunks "ab" (no newline) and "a\nb"
(one newline). -/
theorem cursor_update_two_case_rule_witness :
    advanceCursor ⟨4, 2⟩ ['a', 'b'] = ⟨4, 4⟩ ∧
    advanceCursor ⟨4, 2⟩ ['a', '\n', 'b'] = ⟨5, 1⟩ := by
  constructor
  · have h := (cursor_update_two_case_rule ⟨4, 2⟩ ['a', 'b']).1 (by decide)
    rw [h]
    decide
  · have h := (cursor_update_two_case_rule ⟨4, 2⟩ ['a', '\n', 'b']).2 (by decide)
    rw [h]
    decide

/-! ## The buffer model and the embedded send handler -/

/-- The editor buffer: a list of lines, each a newline-free list of
characters. -/
abbrev Buffer := List (List Char)

/-- `editor.getLine(n)`: the line at index `n` (empty when out of range). -/
def getLine (buf : Buffer) (n : Nat) : List Char := buf.getD n []

/-- A buffer is well formed when no line contains a newline character. -/
def WellFormed (buf : Buffer) : Prop := ∀ l ∈ buf, '\n' ∉ l

/-- A position is valid in a buffer when its line exists and its column is
at most the line's length. -/
def ValidPos (buf : Buffer) (p : EditorPosition) : Prop :=
  p.line < buf.length ∧ p.ch ≤ (getLine buf p.line).length

/-- Document order on positions. -/
def posLe (a b : EditorPosition) : Prop :=
  a.line < b.line ∨ (a.line = b.line ∧ a.ch ≤ b.ch)

/-- `editor.replaceRange(text, f, t)`: the text between positions `f` and
`t` is replaced by `text`; the replacement may span lines and may itself
contain newlines. -/
def replaceRange (buf : Buffer) (text : List Char) (f t : EditorPosition) : Buffer :=
  buf.take f.line ++
    splitOnNl ((getLine buf f.line).take f.ch ++ text ++ (getLine buf t.line).drop t.ch) ++
    buf.drop (t.line + 1)

/-- `editor.replaceRange(text, pos)` with a single position: insertion at
point, as used by the streaming loop. -/
def insertAt (buf : Buffer) (text : List Char) (p : EditorPosition) : Buffer :=
  replaceRange buf text p p

/-- Join lines with newline separators (the text content of a range). -/
def joinWithNl : List (List Char) → List Char
  | [] => []
  | [l] => l
  | l :: ls => l ++ '\n' :: joinWithNl ls

/-- Truncate the final line of a range to column `n`. -/
def clipFinal (n : Nat) : List (List Char) → List (List Char)
  | [] => []
  | [l] => [l.take n]
  | l :: ls => l :: clipFinal n ls

/-- `editor.getSelection()`: the text between the selection ends `f` and
`t`, with newline separators between lines. -/
def getRangeText (buf : Buffer) (f t : EditorPosition) : List Char :=
  match clipFinal t.ch ((buf.take (t.line + 1)).drop f.line) with
  | [] => []
  | l :: ls => joinWithNl (l.drop f.ch :: ls)

/-- The fixed placeholder literal of src/main.ts line 40. -/
def placeholderText : List Char := "⏳ Generating response...".toList

/-- The state of the streaming loop: the buffer, the advancing insertion
cursor `outputPos`, and the remembered selection start `fromPos` (copied,
never written by the loop). -/
structure StreamState where
  buf : Buffer
  outputPos : EditorPosition
  fromPos : EditorPosition
deriving DecidableEq, Repr

/-- One iteration of the streaming loop (src/main.ts lines 66-79): insert
the chunk at `outputPos`, then advance `outputPos`. -/
def applyChunk (s : StreamState) (chunk : List Char) : StreamState :=
  { s with
    buf := insertAt s.buf chunk s.outputPos
    outputPos := advanceCursor s.outputPos chunk }

/-- The whole streaming loop over a chunk sequence. -/
def applyChunks (s : StreamState) (chunks : List (List Char)) : StreamState :=
  chunks.foldl applyChunk s

/-- The placeholder insert/remove sequence (src/main.ts lines 39-47):
replace the selection with the placeholder, then replace from the
selection start to the end of that line, as it now reads, with nothing. -/
def prepBuffer (buf : Buffer) (f t : EditorPosition) : Buffer :=
  let buf1 := replaceRange buf placeholderText f t
  let lineLength := (getLine buf1 f.line).length
  replaceRange buf1 [] f ⟨f.line, lineLength⟩

/-- The stream state at the start of the loop: prepared buffer, and
`outputPos` initialized as a copy of the selection start (src/main.ts
line 50). -/
def initState (buf : Buffer) (f t : EditorPosition) : StreamState :=
  ⟨prepBuffer buf f t, f, f⟩

/-- The plugin settings record. -/
structure ModelSettings where
  model : String
  systemPrompt : String
deriving DecidableEq, Repr

/-- The defaults of src/main.ts lines 9-12. -/
def DEFAULT_SETTINGS : ModelSettings := ⟨"llama3.2", ""⟩

/-- Data as returned by `loadData()`: each field may be present or absent. -/
structure StoredData where
  model : Option String
  systemPrompt : Option String
deriving DecidableEq, Repr

/-- `loadSettings` (src/main.ts line 103): `Object.assign({}, DEFAULT_SETTINGS,
await this.loadData())` — stored data merged over the defaults field by
field; absent data leaves the defaults. -/
def loadSettings (stored : Option StoredData) : ModelSettings :=
  match stored with
  | none => DEFAULT_SETTINGS
  | some d =>
    ⟨d.model.getD DEFAULT_SETTINGS.model,
     d.systemPrompt.getD DEFAULT_SETTINGS.systemPrompt⟩

/-- `saveSettings` (src/main.ts line 107): `saveData(this.settings)` stores
both fields. -/
def saveSettings (s : ModelSettings) : StoredData :=
  ⟨some s.model, some s.systemPrompt⟩

/-- A chat message as built on src/main.ts lines 53-56. -/
structure ChatMessage where
  role : String
  content : List Char
deriving DecidableEq, Repr

/-- The request handed to `ollama.chat` (src/main.ts lines 59-63). -/
structure ChatRequest where
  model : String
  messages : List ChatMessage
deriving DecidableEq, Repr

/-- The outcome of iterating the streaming response: either it completes
after yielding `chunks`, or it raises an error carrying `name` after
yielding `delivered`. -/
inductive StreamOutcome where
  | ok (chunks : List (List Char))
  | err (delivered : List (List Char)) (name : String)

/-- The observable result of one run of the send handler: the notices
shown, the errors logged to the console, the request given to the chat
client (if any), and the final buffer (absent when there is no editor). -/
structure HandlerResult where
  notices : List String
  logged : List String
  chatCall : Option ChatRequest
  buf : Option Buffer

/-- The "Send to Ollama" handler (src/main.ts lines 20-88), embedded over
an optional active editor (buffer plus selection ends) and a stream
outcome. -/
def sendHandler (settings : ModelSettings) (maybeView : Option (Buffer × EditorPosition × EditorPosition))
    (outcome : StreamOutcome) : HandlerResult :=
  match maybeView with
  | none => ⟨["No active editor found."], [], none, none⟩
  | some (buf, f, t) =>
    let prompt := getRangeText buf f t
    if prompt = [] then
      ⟨["Please select some text to send to Ollama."], [], none, some buf⟩
    else
      let message : ChatMessage :=
        ⟨"user", settings.systemPrompt.toList ++ "\n\n".toList ++ prompt⟩
      let req : ChatRequest := ⟨settings.model, [message]⟩
      match outcome with
      | .ok chunks =>
        ⟨[], [], some req, some (applyChunks (initState buf f t) chunks).buf⟩
      | .err delivered name =>
        if name = "AbortError" then
          ⟨["Aborted all requests"], [], some req,
            some (applyChunks (initState buf f t) delivered).buf⟩
        else
          ⟨["❌ Error communicating with Ollama."], [name], some req,
            some (applyChunks (initState buf f t) delivered).buf⟩

/-! ## Streaming-loop helper lemmas -/

theorem applyChunks_nil (s : StreamState) : applyChunks s [] = s := rfl

theorem applyChunks_cons (s : StreamState) (c : List Char) (cs : List (List Char)) :
    applyChunks s (c :: cs) = applyChunks (applyChunk s c) cs := rfl

theorem applyChunks_fromPos (cs : List (List Char)) (s : StreamState) :
    (applyChunks s cs).fromPos = s.fromPos := by
  induction cs generalizing s with
  | nil => rfl
  | cons c cs ih => rw [applyChunks_cons, ih]; rfl

theorem posLe_refl (a : EditorPosition) : posLe a a := Or.inr ⟨rfl, le_rfl⟩

theorem posLe_trans {a b c : EditorPosition} (h₁ : posLe a b) (h₂ : posLe b c) :
    posLe a c := by
  rcases h₁ with h₁ | ⟨h₁, h₁c⟩ <;> rcases h₂ with h₂ | ⟨h₂, h₂c⟩ <;>
    first
    | exact Or.inl (by omega)
    | exact Or.inr (by omega)

theorem posLe_advanceCursor (p : EditorPosition) (c : List Char) :
    posLe p (advanceCursor p c) := by
  by_cases h : '\n' ∈ c
  · rw [advanceCursor_of_nl p h]
    have hc : c.count '\n' ≠ 0 := by simpa [List.count_eq_zero] using h
    exact Or.inl (show p.line < p.line + c.count '\n' by omega)
  · rw [advanceCursor_of_no_nl p h]
    exact Or.inr ⟨rfl, Nat.le_add_right _ _⟩

theorem posLe_applyChunks (q : EditorPosition) (cs : List (List Char))
    (s : StreamState) (h : posLe q s.outputPos) :
    posLe q (applyChunks s cs).outputPos := by
  induction cs generalizing s with
  | nil => exact h
  | cons c cs ih =>
    rw [applyChunks_cons]
    exact ih _ (posLe_trans h (posLe_advanceCursor s.outputPos c))

/-! ## Claim theorems: the worked example and the handler paths -/

/-- C2 counterexample: on the spec's worked example the streaming loop ends
with the cursor at (1, 10), not at the claimed (1, 9) — the text after the
newline, "Next line.", has 10 characters. -/
theorem stream_example_cursor_counterexample :
    (applyChunks ⟨[[]], ⟨0, 0⟩, ⟨0, 0⟩⟩
        ["Hello, ".toList, "world".toList, "!\nNext line.".toList]).outputPos =
      ⟨1, 10⟩ ∧
    (⟨1, 10⟩ : EditorPosition) ≠ ⟨1, 9⟩ := by
  decide

/-- C2 (amended): applying the chunks "Hello, ", "world", "!\nNext line."
in order from cursor (0,0) on an empty buffer yields the buffer content
"Hello, world!\nNext line." and the final cursor (1, 10). -/
theorem stream_example_amended :
    (applyChunks ⟨[[]], ⟨0, 0⟩, ⟨0, 0⟩⟩
        ["Hello, ".toList, "world".toList, "!\nNext line.".toList]).buf =
      ["Hello, world!".toList, "Next line.".toList] ∧
    (applyChunks ⟨[[]], ⟨0, 0⟩, ⟨0, 0⟩⟩
        ["Hello, ".toList, "world".toList, "!\nNext line.".toList]).outputPos =
      ⟨1, 10⟩ := by
  decide

/-- C4: when the stream raises the distinguished cancellation signal
(name "AbortError"), the send handler shows exactly the "Aborted all
requests" notice and logs nothing, however many chunks were applied
before cancellation. -/
theorem abort_shows_only_abort_notice (settings : ModelSettings) (buf : Buffer)
    (f t : EditorPosition) (chunks : List (List Char))
    (h : getRangeText buf f t ≠ []) :
    (sendHandler settings (some (buf, f, t)) (.err chunks "AbortError")).notices =
      ["Aborted all requests"] ∧
    (sendHandler settings (some (buf, f, t)) (.err chunks "AbortError")).logged = [] := by
  simp [sendHandler, h]

/-- Witness for C4. -/
theorem abort_shows_only_abort_notice_witness :
    (sendHandler ⟨"llama3.2", ""⟩ (some ([['a']], ⟨0, 0⟩, ⟨0, 1⟩))
        (.err [['x']] "AbortError")).notices = ["Aborted all requests"] ∧
    (sendHandler ⟨"llama3.2", ""⟩ (some ([['a']], ⟨0, 0⟩, ⟨0, 1⟩))
        (.err [['x']] "AbortError")).logged = [] :=
  abort_shows_only_abort_notice ⟨"llama3.2", ""⟩ [['a']] ⟨0, 0⟩ ⟨0, 1⟩ [['x']]
    (by decide)

/-- C5: a non-cancellation stream error is logged, shows the generic
failure notice, and rolls nothing back: the final buffer is the one
obtained by applying all delivered chunks, the same buffer a successful
stream of those chunks would leave. -/
theorem generic_error_logged_no_rollback (settings : ModelSettings) (buf : Buffer)
    (f t : EditorPosition) (chunks : List (List Char)) (name : String)
    (h : getRangeText buf f t ≠ []) (hn : name ≠ "AbortError") :
    (sendHandler settings (some (buf, f, t)) (.err chunks name)).notices =
      ["❌ Error communicating with Ollama."] ∧
    (sendHandler settings (some (buf, f, t)) (.err chunks name)).logged = [name] ∧
    (sendHandler settings (some (buf, f, t)) (.err chunks name)).buf =
      some (applyChunks (initState buf f t) chunks).buf ∧
    (sendHandler settings (some (buf, f, t)) (.err chunks name)).buf =
      (sendHandler settings (some (buf, f, t)) (.ok chunks)).buf := by
  simp [sendHandler, h, hn]

/-- Witness for C5. -/
theorem generic_error_logged_no_rollback_witness :
    (sendHandler ⟨"llama3.2", ""⟩ (some ([['a']], ⟨0, 0⟩, ⟨0, 1⟩))
        (.err [['x']] "TypeError")).notices =
      ["❌ Error communicating with Ollama."] ∧
    (sendHandler ⟨"llama3.2", ""⟩ (some ([['a']], ⟨0, 0⟩, ⟨0, 1⟩))
        (.err [['x']] "TypeError")).logged = ["TypeError"] ∧
    (sendHandler ⟨"llama3.2", ""⟩ (some ([['a']], ⟨0, 0⟩, ⟨0, 1⟩))
        (.err [['x']] "TypeError")).buf =
      some (applyChunks (initState [['a']] ⟨0, 0⟩ ⟨0, 1⟩) [['x']]).buf ∧
    (sendHandler ⟨"llama3.2", ""⟩ (some ([['a']], ⟨0, 0⟩, ⟨0, 1⟩))
        (.err [['x']] "TypeError")).buf =
      (sendHandler ⟨"llama3.2", ""⟩ (some ([['a']], ⟨0, 0⟩, ⟨0, 1⟩))
        (.ok [['x']])).buf :=
  generic_error_logged_no_rollback ⟨"llama3.2", ""⟩ [['a']] ⟨0, 0⟩ ⟨0, 1⟩ [['x']]
    "TypeError" (by decide) (by decide)

/-- C6: with no active editor the handler shows "No active editor found.",
and with an empty selection it shows "Please select some text to send to
Ollama."; in both cases no chat request is issued and no buffer mutation
is made. -/
theorem precondition_failures (settings : ModelSettings) (outcome : StreamOutcome)
    (buf : Buffer) (f t : EditorPosition) (h : getRangeText buf f t = []) :
    sendHandler settings none outcome =
      ⟨["No active editor found."], [], none, none⟩ ∧
    sendHandler settings (some (buf, f, t)) outcome =
      ⟨["Please select some text to send to Ollama."], [], none, some buf⟩ := by
  constructor
  · rfl
  · simp [sendHandler, h]

/-- Witness for C6 (empty selection on a one-line buffer). -/
theorem precondition_failures_witness :
    sendHandler ⟨"llama3.2", ""⟩ none (.ok []) =
      ⟨["No active editor found."], [], none, none⟩ ∧
    sendHandler ⟨"llama3.2", ""⟩ (some ([['a']], ⟨0, 1⟩, ⟨0, 1⟩)) (.ok []) =
      ⟨["Please select some text to send to Ollama."], [], none, some [['a']]⟩ :=
  precondition_failures ⟨"llama3.2", ""⟩ (.ok []) [['a']] ⟨0, 1⟩ ⟨0, 1⟩ (by decide)

/-- C8: settings round-trip — loading after a save returns exactly the
saved record, loading with nothing stored returns the defaults, and stored
data is merged over the defaults field by field. -/
theorem settings_round_trip :
    (∀ s : ModelSettings, loadSettings (some (saveSettings s)) = s) ∧
    loadSettings (some (saveSettings ⟨"m1", "p1"⟩)) = ⟨"m1", "p1"⟩ ∧
    loadSettings none = ⟨"llama3.2", ""⟩ ∧
    (∀ d : StoredData, loadSettings (some d) =
      ⟨d.model.getD "llama3.2", d.systemPrompt.getD ""⟩) :=
  ⟨fun _ => rfl, rfl, rfl, fun _ => rfl⟩

/-- C9: whenever a request is issued, it carries exactly one message, with
role "user" and content systemPrompt ++ "\n\n" ++ the selection read at
invocation time, and its model field is the stored model setting. -/
theorem request_shape (settings : ModelSettings) (buf : Buffer)
    (f t : EditorPosition) (outcome : StreamOutcome)
    (h : getRangeText buf f t ≠ []) :
    (sendHandler settings (some (buf, f, t)) outcome).chatCall =
      some ⟨settings.model,
        [⟨"user", settings.systemPrompt.toList ++ "\n\n".toList ++ getRangeText buf f t⟩]⟩ := by
  cases outcome with
  | ok chunks => simp [sendHandler, h]
  | err delivered name =>
    by_cases hn : name = "AbortError" <;> simp [sendHandler, h, hn]

/-- Witness for C9. -/
theorem request_shape_witness :
    (sendHandler ⟨"m", "sys"⟩ (some ([['a']], ⟨0, 0⟩, ⟨0, 1⟩)) (.ok [])).chatCall =
      some ⟨"m", [⟨"user", "sys".toList ++ "\n\n".toList ++ getRangeText [['a']] ⟨0, 0⟩ ⟨0, 1⟩⟩]⟩ :=
  request_shape ⟨"m", "sys"⟩ [['a']] ⟨0, 0⟩ ⟨0, 1⟩ (.ok []) (by decide)

/-- C10: the insertion cursor starts as a copy of the recorded selection
start; the recorded start is never modified by any number of applied
chunks, and after any prefix of the chunk sequence the insertion cursor is
at or after the original selection start. -/
theorem output_cursor_after_selection_start (buf : Buffer) (f t : EditorPosition)
    (chunks : List (List Char)) :
    (initState buf f t).outputPos = f ∧
    (∀ k, (applyChunks (initState buf f t) (chunks.take k)).fromPos = f) ∧
    (∀ k, posLe f (applyChunks (initState buf f t) (chunks.take k)).outputPos) := by
  refine ⟨rfl, fun k => ?_, fun k => ?_⟩
  · rw [applyChunks_fromPos]; rfl
  · exact posLe_applyChunks f _ _ (posLe_refl f)

/-! ## How `splitOnNl` interacts with append -/

/-- Prepend newline-free text to the first piece of a split. -/
def consPre (u : List Char) : List (List Char) → List (List Char)
  | [] => [u]
  | l :: ls => (u ++ l) :: ls

/-- Append newline-free text to the final piece of a split. -/
def extendLast (w : List Char) : List (List Char) → List (List Char)
  | [] => [w]
  | [l] => [l ++ w]
  | l :: ls => l :: extendLast w ls

theorem consHead_consPre (c : Char) (u : List Char) (s : List (List Char)) :
    consHead c (consPre u s) = consPre (c :: u) s := by
  cases s <;> rfl

theorem consPre_nil_left {s : List (List Char)} (h : s ≠ []) : consPre [] s = s := by
  cases s with
  | nil => exact absurd rfl h
  | cons l ls => simp [consPre]

theorem extendLast_cons_of_ne_nil (w l : List Char) {s : List (List Char)}
    (h : s ≠ []) : extendLast w (l :: s) = l :: extendLast w s := by
  cases s with
  | nil => exact absurd rfl h
  | cons x xs => rfl

theorem consHead_extendLast (c : Char) (w : List Char) {s : List (List Char)}
    (h : s ≠ []) : consHead c (extendLast w s) = extendLast w (consHead c s) := by
  cases s with
  | nil => exact absurd rfl h
  | cons x xs =>
    cases xs with
    | nil => rfl
    | cons y ys => rfl

theorem splitOnNl_append_left {u : List Char} (hu : '\n' ∉ u) (v : List Char) :
    splitOnNl (u ++ v) = consPre u (splitOnNl v) := by
  induction u with
  | nil => rw [List.nil_append, consPre_nil_left (splitOnNl_ne_nil v)]
  | cons c cs ih =>
    simp only [List.mem_cons, not_or] at hu
    rw [List.cons_append, splitOnNl, if_neg (fun hc => hu.1 hc.symm), ih hu.2,
      consHead_consPre]

theorem splitOnNl_append_right (v : List Char) {w : List Char} (hw : '\n' ∉ w) :
    splitOnNl (v ++ w) = extendLast w (splitOnNl v) := by
  induction v with
  | nil =>
    rw [List.nil_append, splitOnNl_of_no_nl hw]
    rfl
  | cons c cs ih =>
    by_cases hc : c = '\n'
    · rw [List.cons_append, splitOnNl, if_pos hc, splitOnNl, if_pos hc, ih,
        extendLast_cons_of_ne_nil _ _ (splitOnNl_ne_nil cs)]
    · rw [List.cons_append, splitOnNl, if_neg hc, splitOnNl, if_neg hc, ih,
        consHead_extendLast _ _ (splitOnNl_ne_nil cs)]

theorem splitOnNl_append_last (a x : List Char) :
    splitOnNl (a ++ x) =
      (splitOnNl a).dropLast ++ splitOnNl (lastLine (splitOnNl a) ++ x) := by
  induction a with
  | nil => simp [splitOnNl, lastLine]
  | cons c cs ih =>
    by_cases hc : c = '\n'
    · rw [List.cons_append, splitOnNl, if_pos hc, splitOnNl, if_pos hc, ih,
        lastLine_cons_of_ne_nil _ (splitOnNl_ne_nil cs)]
      cases hs : splitOnNl cs with
      | nil => exact absurd hs (splitOnNl_ne_nil cs)
      | cons l ls =>
        cases ls with
        | nil => simp [lastLine]
        | cons m ms => simp [lastLine]
    · rw [List.cons_append, splitOnNl, if_neg hc, splitOnNl, if_neg hc, ih]
      cases hs : splitOnNl cs with
      | nil => exact absurd hs (splitOnNl_ne_nil cs)
      | cons l ls =>
        cases ls with
        | nil =>
          rw [show consHead c [l] = [c :: l] from rfl, List.dropLast_single,
            List.dropLast_single, List.nil_append, List.nil_append,
            show lastLine [l] = l from rfl, show lastLine [c :: l] = c :: l from rfl,
            List.cons_append, splitOnNl, if_neg hc]
        | cons m ms =>
          simp [consHead, lastLine, lastLine_cons_of_ne_nil]

theorem no_nl_of_mem_splitOnNl {y x : List Char} (h : y ∈ splitOnNl x) :
    '\n' ∉ y := by
  induction x generalizing y with
  | nil =>
    simp only [splitOnNl, List.mem_singleton] at h
    subst h
    simp
  | cons c cs ih =>
    by_cases hc : c = '\n'
    · rw [splitOnNl, if_pos hc] at h
      rcases List.mem_cons.mp h with h | h
      · subst h; simp
      · exact ih h
    · rw [splitOnNl, if_neg hc] at h
      cases hs : splitOnNl cs with
      | nil => exact absurd hs (splitOnNl_ne_nil cs)
      | cons l ls =>
        rw [hs] at h
        simp only [consHead, List.mem_cons] at h
        rcases h with h | h
        · subst h
          have hl : '\n' ∉ l := ih (by rw [hs]; exact List.mem_cons_self l ls)
          simp only [List.mem_cons, not_or]
          exact ⟨fun hnc => hc hnc.symm, hl⟩
        · exact ih (by rw [hs]; exact List.mem_cons_of_mem l h)

theorem specAfterLastNewline_append (a b : List Char) :
    specAfterLastNewline (a ++ b) =
      if '\n' ∈ b then specAfterLastNewline b
      else specAfterLastNewline a ++ b := by
  induction a with
  | nil =>
    by_cases hb : '\n' ∈ b
    · rw [List.nil_append, if_pos hb]
    · rw [List.nil_append, if_neg hb, specAfterLastNewline_of_no_nl hb]
      rfl
  | cons c cs ih =>
    by_cases hb : '\n' ∈ b <;> by_cases hcs : '\n' ∈ cs
    · rw [List.cons_append, specAfterLastNewline,
        if_pos (List.mem_append.mpr (Or.inl hcs)), ih, if_pos hb, if_pos hb]
    · rw [List.cons_append, specAfterLastNewline,
        if_pos (List.mem_append.mpr (Or.inr hb)), ih, if_pos hb, if_pos hb]
    · rw [List.cons_append, specAfterLastNewline,
        if_pos (List.mem_append.mpr (Or.inl hcs)), ih, if_neg hb, if_neg hb,
        specAfterLastNewline, if_pos hcs]
    · have hmem : '\n' ∉ cs ++ b := by
        simp only [List.mem_append, not_or]
        exact ⟨hcs, hb⟩
      rw [List.cons_append, specAfterLastNewline, if_neg hmem, if_neg hb,
        specAfterLastNewline, if_neg hcs]
      by_cases hc : c = '\n'
      · rw [if_pos hc, if_pos hc]
      · rw [if_neg hc, if_neg hc, List.cons_append]

theorem count_nl_eq_zero_of_not_mem {l : List Char} (h : '\n' ∉ l) :
    l.count '\n' = 0 := by
  simpa [List.count_eq_zero] using h

theorem advanceCursor_append (p : EditorPosition) (a b : List Char) :
    advanceCursor (advanceCursor p a) b = advanceCursor p (a ++ b) := by
  by_cases ha : '\n' ∈ a <;> by_cases hb : '\n' ∈ b
  · rw [advanceCursor_of_nl p ha, advanceCursor_of_nl _ hb,
      advanceCursor_of_nl p (List.mem_append.mpr (Or.inl ha)),
      specAfterLastNewline_append, if_pos hb]
    simp only [List.count_append]
    congr 1
    omega
  · rw [advanceCursor_of_nl p ha, advanceCursor_of_no_nl _ hb,
      advanceCursor_of_nl p (List.mem_append.mpr (Or.inl ha)),
      specAfterLastNewline_append, if_neg hb]
    simp only [List.count_append, List.length_append,
      count_nl_eq_zero_of_not_mem hb]
    congr 1
  · rw [advanceCursor_of_no_nl p ha, advanceCursor_of_nl _ hb,
      advanceCursor_of_nl p (List.mem_append.mpr (Or.inr hb)),
      specAfterLastNewline_append, if_pos hb]
    simp only [List.count_append, count_nl_eq_zero_of_not_mem ha]
    congr 1
    omega
  · have hab : '\n' ∉ a ++ b := by
      simp only [List.mem_append, not_or]
      exact ⟨ha, hb⟩
    rw [advanceCursor_of_no_nl p ha, advanceCursor_of_no_nl _ hb,
      advanceCursor_of_no_nl p hab]
    simp only [List.length_append]
    congr 1
    omega

/-! ## Shape of a single insertion -/

theorem extendLast_ne_nil (w : List Char) (s : List (List Char)) :
    extendLast w s ≠ [] := by
  cases s with
  | nil => simp [extendLast]
  | cons x xs => cases xs <;> simp [extendLast]

theorem consPre_ne_nil (u : List Char) (s : List (List Char)) : consPre u s ≠ [] := by
  cases s <;> simp [consPre]

theorem length_extendLast (w : List Char) {s : List (List Char)} (h : s ≠ []) :
    (extendLast w s).length = s.length := by
  induction s with
  | nil => exact absurd rfl h
  | cons x xs ih =>
    cases xs with
    | nil => rfl
    | cons y ys =>
      rw [extendLast_cons_of_ne_nil _ _ (by simp), List.length_cons,
        ih (by simp), List.length_cons]
      simp

theorem length_consPre (u : List Char) {s : List (List Char)} (h : s ≠ []) :
    (consPre u s).length = s.length := by
  cases s with
  | nil => exact absurd rfl h
  | cons x xs => rfl

theorem extendLast_dropLast (w : List Char) {s : List (List Char)} (h : s ≠ []) :
    (extendLast w s).dropLast = s.dropLast := by
  induction s with
  | nil => exact absurd rfl h
  | cons x xs ih =>
    cases xs with
    | nil => rfl
    | cons y ys =>
      rw [extendLast_cons_of_ne_nil _ _ (by simp)]
      cases he : extendLast w (y :: ys) with
      | nil => exact absurd he (extendLast_ne_nil w (y :: ys))
      | cons m ms =>
        rw [List.dropLast_cons₂, List.dropLast_cons₂, ← he, ih (by simp)]

theorem consPre_dropLast (u : List Char) {s : List (List Char)}
    (h : 2 ≤ s.length) : (consPre u s).dropLast = consPre u s.dropLast := by
  cases s with
  | nil => simp at h
  | cons x xs =>
    cases xs with
    | nil => simp at h
    | cons y ys => simp [consPre, List.dropLast_cons₂]

theorem lastLine_extendLast (w : List Char) {s : List (List Char)} (h : s ≠ []) :
    lastLine (extendLast w s) = lastLine s ++ w := by
  induction s with
  | nil => exact absurd rfl h
  | cons x xs ih =>
    cases xs with
    | nil => rfl
    | cons y ys =>
      rw [extendLast_cons_of_ne_nil _ _ (by simp),
        lastLine_cons_of_ne_nil _ (extendLast_ne_nil w (y :: ys)),
        lastLine_cons_of_ne_nil _ (by simp), ih (by simp)]

theorem lastLine_consPre (u : List Char) {s : List (List Char)}
    (h : 2 ≤ s.length) : lastLine (consPre u s) = lastLine s := by
  cases s with
  | nil => simp at h
  | cons x xs =>
    cases xs with
    | nil => simp at h
    | cons y ys => simp [consPre, lastLine]

theorem consPre_append (u : List Char) {s : List (List Char)}
    (h : s ≠ []) (t : List (List Char)) : consPre u s ++ t = consPre u (s ++ t) := by
  cases s with
  | nil => exact absurd rfl h
  | cons x xs => simp [consPre]

theorem no_nl_getLine {buf : Buffer} (hW : WellFormed buf) (n : Nat) :
    '\n' ∉ getLine buf n := by
  by_cases h : n < buf.length
  · exact hW _ (by rw [getLine, List.getD_eq_getElem _ _ h]; exact List.getElem_mem h)
  · rw [getLine, List.getD_eq_default _ _ (by omega)]
    simp

/-- Any insertion at a point, written through `consPre`/`extendLast`: the
line at the point is cut at the column, the chunk's pieces go in between. -/
theorem insertAt_shape (buf : Buffer) (a : List Char) (p : EditorPosition)
    (hW : WellFormed buf) :
    insertAt buf a p =
      buf.take p.line ++
        consPre ((getLine buf p.line).take p.ch)
          (extendLast ((getLine buf p.line).drop p.ch) (splitOnNl a)) ++
        buf.drop (p.line + 1) := by
  have hpre : '\n' ∉ (getLine buf p.line).take p.ch :=
    fun h => no_nl_getLine hW p.line (List.mem_of_mem_take h)
  have hsuf : '\n' ∉ (getLine buf p.line).drop p.ch :=
    fun h => no_nl_getLine hW p.line (List.mem_of_mem_drop h)
  rw [insertAt, replaceRange, List.append_assoc _ a,
    splitOnNl_append_left hpre, splitOnNl_append_right _ hsuf]

theorem getLine_concat (A M B : Buffer) (k : Nat) (hk : k < M.length) :
    getLine (A ++ M ++ B) (A.length + k) = getLine M k := by
  rw [getLine, List.append_assoc,
    List.getD_append_right _ _ _ _ (Nat.le_add_right _ _),
    Nat.add_sub_cancel_left, List.getD_append _ _ _ _ hk, getLine]

theorem take_concat (A M B : Buffer) (k : Nat) (hk : k ≤ M.length) :
    (A ++ M ++ B).take (A.length + k) = A ++ M.take k := by
  rw [List.append_assoc, List.take_append, List.take_append_of_le_length hk]

theorem getLine_length_sub_one {M : Buffer} (h : M ≠ []) :
    getLine M (M.length - 1) = lastLine M := by
  induction M with
  | nil => exact absurd rfl h
  | cons x xs ih =>
    cases xs with
    | nil => rfl
    | cons y ys =>
      rw [lastLine_cons_of_ne_nil _ (by simp), ← ih (by simp)]
      rfl

theorem insertAt_unfold (bb : Buffer) (txt : List Char) (q : EditorPosition) :
    insertAt bb txt q =
      bb.take q.line ++
        splitOnNl ((getLine bb q.line).take q.ch ++ txt ++ (getLine bb q.line).drop q.ch) ++
        bb.drop (q.line + 1) := rfl

theorem getLine_concat_head (A : Buffer) (x : List Char) (B : Buffer) {n : Nat}
    (hn : A.length = n) : getLine (A ++ [x] ++ B) n = x := by
  subst hn
  have h := getLine_concat A [x] B 0 (by simp)
  rw [Nat.add_zero] at h
  rw [h]
  rfl

/-- Inserting at the end of the middle (single) line of a buffer of shape
`A ++ [pre ++ (mid ++ suf)] ++ B`, at the column right after `mid`. -/
theorem insertAt_concat_mid (A B : Buffer) (pre mid suf b : List Char) {n c : Nat}
    (hn : A.length = n) (hc : pre.length + mid.length = c) :
    insertAt (A ++ [pre ++ (mid ++ suf)] ++ B) b ⟨n, c⟩ =
      A ++ splitOnNl (pre ++ (mid ++ (b ++ suf))) ++ B := by
  subst hn
  subst hc
  rw [insertAt_unfold]
  dsimp only
  rw [getLine_concat_head A _ B rfl]
  have htk : (pre ++ (mid ++ suf)).take (pre.length + mid.length) = pre ++ mid := by
    rw [show pre ++ (mid ++ suf) = (pre ++ mid) ++ suf from by rw [List.append_assoc],
      List.take_left' (List.length_append pre mid)]
  have hdr : (pre ++ (mid ++ suf)).drop (pre.length + mid.length) = suf := by
    rw [show pre ++ (mid ++ suf) = (pre ++ mid) ++ suf from by rw [List.append_assoc],
      List.drop_left' (List.length_append pre mid)]
  rw [htk, hdr]
  rw [show (A ++ [pre ++ (mid ++ suf)] ++ B).take A.length = A from by
    rw [List.append_assoc]
    exact List.take_left A _]
  rw [show (A ++ [pre ++ (mid ++ suf)] ++ B).drop (A.length + 1) = B from
    List.drop_left' (by simp)]
  rw [show (pre ++ mid) ++ b ++ suf = pre ++ (mid ++ (b ++ suf)) from by
    simp [List.append_assoc]]

/-- Inserting into a buffer of shape `A ++ M ++ B` at the final line of `M`,
at the column right after `aL`. -/
theorem insertAt_concat_last (A M B : Buffer) (b aL suf : List Char) {k m c : Nat}
    (hlen : M.length = k + 1)
    (hlast : lastLine M = aL ++ suf)
    (hm : A.length + k = m)
    (hc : aL.length = c) :
    insertAt (A ++ M ++ B) b ⟨m, c⟩ =
      A ++ (M.dropLast ++ splitOnNl (aL ++ (b ++ suf))) ++ B := by
  subst hm
  subst hc
  rw [insertAt_unfold]
  dsimp only
  have hget : getLine (A ++ M ++ B) (A.length + k) = aL ++ suf := by
    rw [getLine_concat A M B k (by omega),
      show k = M.length - 1 by omega,
      getLine_length_sub_one (List.ne_nil_of_length_pos (by omega)), hlast]
  rw [hget, List.take_left, List.drop_left]
  rw [take_concat A M B k (by omega)]
  rw [show (A ++ M ++ B).drop (A.length + k + 1) = B from
    List.drop_left' (by rw [List.length_append, hlen]; omega)]
  rw [show M.take k = M.dropLast from by
    rw [List.dropLast_eq_take, hlen, Nat.add_sub_cancel]]
  simp [List.append_assoc]

theorem take_length_eq {buf : Buffer} {p : EditorPosition}
    (h : p.line < buf.length) : (buf.take p.line).length = p.line := by
  rw [List.length_take]
  omega

theorem count_pos_of_mem_nl {a : List Char} (ha : '\n' ∈ a) : 1 ≤ a.count '\n' := by
  rw [← List.count_pos_iff] at ha
  omega

/-- Two successive point insertions, the second at the advanced cursor,
equal one insertion of the concatenated text. -/
theorem insertAt_insertAt (buf : Buffer) (a b : List Char) (p : EditorPosition)
    (hW : WellFormed buf) (hV : ValidPos buf p) :
    insertAt (insertAt buf a p) b (advanceCursor p a) = insertAt buf (a ++ b) p := by
  obtain ⟨hline, hch⟩ := hV
  have hpre : '\n' ∉ (getLine buf p.line).take p.ch :=
    fun h => no_nl_getLine hW p.line (List.mem_of_mem_take h)
  have hplen : ((getLine buf p.line).take p.ch).length = p.ch := by
    rw [List.length_take]
    omega
  have hTlen : (buf.take p.line).length = p.line := take_length_eq hline
  by_cases ha : '\n' ∈ a
  · -- the chunk spans several lines
    have hca := count_pos_of_mem_nl ha
    have h2len : 2 ≤ (extendLast ((getLine buf p.line).drop p.ch) (splitOnNl a)).length := by
      rw [length_extendLast _ (splitOnNl_ne_nil a), splitOnNl_length]
      omega
    have hMlen :
        (consPre ((getLine buf p.line).take p.ch)
          (extendLast ((getLine buf p.line).drop p.ch) (splitOnNl a))).length =
          a.count '\n' + 1 := by
      rw [length_consPre _ (extendLast_ne_nil _ _),
        length_extendLast _ (splitOnNl_ne_nil a), splitOnNl_length]
    have hMlast :
        lastLine (consPre ((getLine buf p.line).take p.ch)
          (extendLast ((getLine buf p.line).drop p.ch) (splitOnNl a))) =
          specAfterLastNewline a ++ (getLine buf p.line).drop p.ch := by
      rw [lastLine_consPre _ h2len, lastLine_extendLast _ (splitOnNl_ne_nil a),
        lastLine_splitOnNl]
    have hMdl :
        (consPre ((getLine buf p.line).take p.ch)
          (extendLast ((getLine buf p.line).drop p.ch) (splitOnNl a))).dropLast =
          consPre ((getLine buf p.line).take p.ch) (splitOnNl a).dropLast := by
      rw [consPre_dropLast _ h2len, extendLast_dropLast _ (splitOnNl_ne_nil a)]
    have hdl : (splitOnNl a).dropLast ≠ [] := by
      apply List.ne_nil_of_length_pos
      rw [List.length_dropLast, splitOnNl_length]
      omega
    rw [advanceCursor_of_nl p ha, insertAt_shape buf a p hW,
      insertAt_concat_last (buf.take p.line) _ (buf.drop (p.line + 1)) b
        (specAfterLastNewline a) ((getLine buf p.line).drop p.ch)
        hMlen hMlast (by rw [hTlen]) rfl,
      hMdl]
    rw [insertAt_unfold buf (a ++ b) p]
    rw [show (getLine buf p.line).take p.ch ++ (a ++ b) ++ (getLine buf p.line).drop p.ch =
        (getLine buf p.line).take p.ch ++ (a ++ (b ++ (getLine buf p.line).drop p.ch)) from by
      simp [List.append_assoc]]
    rw [splitOnNl_append_left hpre, splitOnNl_append_last a, lastLine_splitOnNl]
    rw [consPre_append _ hdl]
  · -- the chunk stays on one line
    have hbuf1 : insertAt buf a p =
        buf.take p.line ++
          [(getLine buf p.line).take p.ch ++ (a ++ (getLine buf p.line).drop p.ch)] ++
          buf.drop (p.line + 1) := by
      rw [insertAt_shape buf a p hW, splitOnNl_of_no_nl ha]
      rfl
    rw [advanceCursor_of_no_nl p ha, hbuf1,
      insertAt_concat_mid (buf.take p.line) (buf.drop (p.line + 1))
        ((getLine buf p.line).take p.ch) a ((getLine buf p.line).drop p.ch) b
        hTlen (by rw [hplen])]
    rw [insertAt_unfold buf (a ++ b) p]
    rw [show (getLine buf p.line).take p.ch ++ (a ++ b) ++ (getLine buf p.line).drop p.ch =
        (getLine buf p.line).take p.ch ++ (a ++ (b ++ (getLine buf p.line).drop p.ch)) from by
      simp [List.append_assoc]]

theorem wellFormed_replaceRange (buf : Buffer) (text : List Char)
    (f t : EditorPosition) (hW : WellFormed buf) :
    WellFormed (replaceRange buf text f t) := by
  intro l hl
  rw [replaceRange] at hl
  rcases List.mem_append.mp hl with hl | hl
  · rcases List.mem_append.mp hl with hl | hl
    · exact hW _ (List.mem_of_mem_take hl)
    · exact no_nl_of_mem_splitOnNl hl
  · exact hW _ (List.mem_of_mem_drop hl)

theorem wellFormed_insertAt (buf : Buffer) (a : List Char) (p : EditorPosition)
    (hW : WellFormed buf) : WellFormed (insertAt buf a p) :=
  wellFormed_replaceRange buf a p p hW

theorem getLine_concat_last (A M B : Buffer) {k m : Nat} (hlen : M.length = k + 1)
    (hm : A.length + k = m) : getLine (A ++ M ++ B) m = lastLine M := by
  subst hm
  rw [getLine_concat A M B k (by omega), show k = M.length - 1 by omega,
    getLine_length_sub_one (List.ne_nil_of_length_pos (by omega))]

theorem validPos_insertAt (buf : Buffer) (a : List Char) (p : EditorPosition)
    (hW : WellFormed buf) (hV : ValidPos buf p) :
    ValidPos (insertAt buf a p) (advanceCursor p a) := by
  obtain ⟨hline, hch⟩ := hV
  have hTlen := take_length_eq hline
  have hplen : ((getLine buf p.line).take p.ch).length = p.ch := by
    rw [List.length_take]
    omega
  have hMlen :
      (consPre ((getLine buf p.line).take p.ch)
        (extendLast ((getLine buf p.line).drop p.ch) (splitOnNl a))).length =
        a.count '\n' + 1 := by
    rw [length_consPre _ (extendLast_ne_nil _ _),
      length_extendLast _ (splitOnNl_ne_nil a), splitOnNl_length]
  have hlen1 : (insertAt buf a p).length =
      p.line + (a.count '\n' + 1) + (buf.drop (p.line + 1)).length := by
    rw [insertAt_shape buf a p hW, List.length_append, List.length_append,
      hTlen, hMlen]
  by_cases ha : '\n' ∈ a
  · have hca := count_pos_of_mem_nl ha
    have h2len : 2 ≤ (extendLast ((getLine buf p.line).drop p.ch) (splitOnNl a)).length := by
      rw [length_extendLast _ (splitOnNl_ne_nil a), splitOnNl_length]
      omega
    have hgetq : getLine (insertAt buf a p) (p.line + a.count '\n') =
        specAfterLastNewline a ++ (getLine buf p.line).drop p.ch := by
      rw [insertAt_shape buf a p hW,
        getLine_concat_last _ _ _ hMlen (by rw [hTlen]),
        lastLine_consPre _ h2len, lastLine_extendLast _ (splitOnNl_ne_nil a),
        lastLine_splitOnNl]
    rw [advanceCursor_of_nl p ha]
    constructor
    · dsimp only
      rw [hlen1]
      omega
    · dsimp only
      rw [hgetq, List.length_append]
      omega
  · have hbuf1 : insertAt buf a p =
        buf.take p.line ++
          [(getLine buf p.line).take p.ch ++ (a ++ (getLine buf p.line).drop p.ch)] ++
          buf.drop (p.line + 1) := by
      rw [insertAt_shape buf a p hW, splitOnNl_of_no_nl ha]
      rfl
    rw [advanceCursor_of_no_nl p ha]
    constructor
    · dsimp only
      rw [hlen1]
      omega
    · dsimp only
      rw [hbuf1, getLine_concat_head _ _ _ hTlen, List.length_append,
        List.length_append, hplen]
      omega

theorem insertAt_nil (buf : Buffer) (p : EditorPosition) (hW : WellFormed buf)
    (hline : p.line < buf.length) : insertAt buf [] p = buf := by
  rw [insertAt_unfold, List.append_nil, List.take_append_drop,
    splitOnNl_of_no_nl (no_nl_getLine hW p.line), getLine,
    List.getD_eq_getElem _ _ hline]
  conv_rhs => rw [← List.take_append_drop p.line buf]
  rw [List.drop_eq_getElem_cons hline]
  simp

/-- The streaming loop over any chunk list equals one insertion of the
concatenated text, with the cursor advanced over the concatenation and the
remembered selection start untouched. -/
theorem applyChunks_insertAt (chunks : List (List Char)) (buf : Buffer)
    (p f : EditorPosition) (hW : WellFormed buf) (hV : ValidPos buf p) :
    applyChunks ⟨buf, p, f⟩ chunks =
      ⟨insertAt buf chunks.flatten p, advanceCursor p chunks.flatten, f⟩ := by
  induction chunks generalizing buf p with
  | nil =>
    rw [applyChunks_nil, List.flatten_nil, insertAt_nil buf p hW hV.1,
      advanceCursor_of_no_nl p (by simp)]
    simp
  | cons c cs ih =>
    rw [applyChunks_cons,
      show applyChunk ⟨buf, p, f⟩ c = ⟨insertAt buf c p, advanceCursor p c, f⟩ from rfl,
      ih _ _ (wellFormed_insertAt buf c p hW) (validPos_insertAt buf c p hW hV),
      insertAt_insertAt buf c cs.flatten p hW hV, advanceCursor_append,
      List.flatten_cons]

/-- C3: after applying any prefix of the chunk sequence, the buffer holds
exactly the concatenation of those chunks inserted once, in order, at the
start position, and the cursor sits immediately after that inserted text
(at the position the cursor rule assigns to the concatenation). -/
theorem chunks_applied_exactly_once_in_order (buf : Buffer) (p : EditorPosition)
    (chunks : List (List Char)) (hW : WellFormed buf) (hV : ValidPos buf p) :
    ∀ k, applyChunks ⟨buf, p, p⟩ (chunks.take k) =
      ⟨insertAt buf ((chunks.take k).flatten) p,
       advanceCursor p ((chunks.take k).flatten), p⟩ :=
  fun k => applyChunks_insertAt (chunks.take k) buf p p hW hV

instance (buf : Buffer) : Decidable (WellFormed buf) :=
  inferInstanceAs (Decidable (∀ l ∈ buf, '\n' ∉ l))

instance (buf : Buffer) (p : EditorPosition) : Decidable (ValidPos buf p) :=
  inferInstanceAs (Decidable (p.line < buf.length ∧ p.ch ≤ (getLine buf p.line).length))

/-- Witness for C3 on a two-chunk stream with a newline. -/
theorem chunks_applied_exactly_once_in_order_witness :
    applyChunks ⟨[['a', 'b']], ⟨0, 1⟩, ⟨0, 1⟩⟩ ([['x', '\n'], ['y']].take 2) =
      ⟨insertAt [['a', 'b']] (([['x', '\n'], ['y']].take 2).flatten) ⟨0, 1⟩,
       advanceCursor ⟨0, 1⟩ (([['x', '\n'], ['y']].take 2).flatten), ⟨0, 1⟩⟩ :=
  chunks_applied_exactly_once_in_order [['a', 'b']] ⟨0, 1⟩ [['x', '\n'], ['y']]
    (by decide) (by decide) 2

/-! ## The placeholder lifecycle -/

theorem no_nl_placeholderText : '\n' ∉ placeholderText := by decide

/-- Replacing from column `p.ch` to the end of line `p.line` with nothing
clears everything on that line at or after the column. -/
theorem clear_to_end (buf : Buffer) (p : EditorPosition) (hW : WellFormed buf)
    (hline : p.line < buf.length) (_hch : p.ch ≤ (getLine buf p.line).length) :
    replaceRange buf [] p ⟨p.line, (getLine buf p.line).length⟩ =
      buf.set p.line ((getLine buf p.line).take p.ch) := by
  rw [replaceRange]
  dsimp only
  rw [List.drop_length, List.append_nil, List.append_nil,
    splitOnNl_of_no_nl (fun h => no_nl_getLine hW p.line (List.mem_of_mem_take h)),
    List.set_eq_take_cons_drop _ hline]
  simp

theorem line_lt_length_replaceRange (buf : Buffer) (text : List Char)
    (f t : EditorPosition) (hline : f.line < buf.length) :
    f.line < (replaceRange buf text f t).length := by
  rw [replaceRange, List.length_append, List.length_append,
    List.length_take]
  have := splitOnNl_ne_nil ((getLine buf f.line).take f.ch ++ text ++
    (getLine buf t.line).drop t.ch)
  have hpos := List.length_pos.mpr this
  omega

theorem getLine_after_placeholder (buf : Buffer) (f t : EditorPosition)
    (hW : WellFormed buf) (hf : f.line < buf.length) :
    getLine (replaceRange buf placeholderText f t) f.line =
      (getLine buf f.line).take f.ch ++ placeholderText ++
        (getLine buf t.line).drop t.ch := by
  rw [replaceRange,
    splitOnNl_of_no_nl (by
      simp only [List.mem_append, not_or]
      refine ⟨⟨fun h => no_nl_getLine hW f.line (List.mem_of_mem_take h),
        no_nl_placeholderText⟩,
        fun h => no_nl_getLine hW t.line (List.mem_of_mem_drop h)⟩),
    getLine_concat_head _ _ _ (take_length_eq hf)]

/-- C7: the placeholder phase first replaces the selected range with the
fixed literal "⏳ Generating response...", then removes it by replacing the
span from the selection-start column to the end of that line, as it then
reads, with nothing — so everything on the starting line at or after the
selection-start column is cleared. -/
theorem placeholder_insert_then_clear (buf : Buffer) (f t : EditorPosition)
    (hW : WellFormed buf) (hf : ValidPos buf f) :
    prepBuffer buf f t =
      replaceRange (replaceRange buf placeholderText f t) [] f
        ⟨f.line, (getLine (replaceRange buf placeholderText f t) f.line).length⟩ ∧
    prepBuffer buf f t =
      (replaceRange buf placeholderText f t).set f.line
        ((getLine (replaceRange buf placeholderText f t) f.line).take f.ch) := by
  refine ⟨rfl, ?_⟩
  rw [prepBuffer]
  apply clear_to_end
  · exact wellFormed_replaceRange buf placeholderText f t hW
  · exact line_lt_length_replaceRange buf placeholderText f t hf.1
  · rw [getLine_after_placeholder buf f t hW hf.1, List.length_append,
      List.length_append, List.length_take]
    have := hf.2
    omega

/-- Witness for C7 on a one-line buffer with the selection "bc" inside
"abcd". -/
theorem placeholder_insert_then_clear_witness :
    prepBuffer [['a', 'b', 'c', 'd']] ⟨0, 1⟩ ⟨0, 3⟩ =
      replaceRange (replaceRange [['a', 'b', 'c', 'd']] placeholderText ⟨0, 1⟩ ⟨0, 3⟩)
        [] ⟨0, 1⟩
        ⟨0, (getLine (replaceRange [['a', 'b', 'c', 'd']] placeholderText ⟨0, 1⟩ ⟨0, 3⟩) 0).length⟩ ∧
    prepBuffer [['a', 'b', 'c', 'd']] ⟨0, 1⟩ ⟨0, 3⟩ =
      (replaceRange [['a', 'b', 'c', 'd']] placeholderText ⟨0, 1⟩ ⟨0, 3⟩).set 0
        ((getLine (replaceRange [['a', 'b', 'c', 'd']] placeholderText ⟨0, 1⟩ ⟨0, 3⟩) 0).take 1) :=
  placeholder_insert_then_clear [['a', 'b', 'c', 'd']] ⟨0, 1⟩ ⟨0, 3⟩
    (by decide) (by decide)
